import Mathlib

/-!
Verification of the computer-opponent move-selection engine of a web chess
application.  The repository contains two independently evolved copies of the
engine: `src/lib/chessAI.ts` (embedded below in namespace `chessAI`) and
`src/lib/ai.ts` (namespace `ai`).  Both consist of a static evaluator
(`evaluateBoard`), a depth-limited alpha-beta minimax (`minimax`) and a
top-level move selector (`getBestMove`) parameterized by a difficulty tier.

The rules engine (chess.js) is external to the repository; it is modelled by
the `Engine` interface below: legal-move enumeration, move application,
terminal-state detection, side to move, and the static score of a position
(the composition of `game.board()` with the per-file `evaluateBoard`).

JavaScript numbers used as search bounds include `-Infinity` and `Infinity`
(the chessAI re-run loop calls `minimax(game, d, -Infinity, Infinity, _)`),
so bounds live in `Bnd := WithBot (WithTop Int)`, with `⊥` and `⊤` playing
the roles of the two infinities, while all produced scores are integers.
-/

/-- Piece kinds as used by chess.js: pawn, knight, bishop, rook, queen, king. -/
inductive PieceType
  | p | n | b | r | q | k
deriving DecidableEq

/-- The two sides.  chess.js reports them as the characters w and b. -/
inductive Color
  | w | b
deriving DecidableEq

/-- A piece on the board: its kind and its color. -/
structure Piece where
  type : PieceType
  color : Color
deriving DecidableEq

/-- A board as returned by `game.board()`: an 8 by 8 grid, addressed by a row
index `i` and a column index `j`, each square either empty or holding a piece.
Indices outside the grid are never read by the code below. -/
def Board : Type := Nat → Nat → Option Piece

/-- The fixed material value table shared by both engine files:
`{ p: 10, n: 30, b: 30, r: 50, q: 90, k: 900 }`. -/
def PIECE_VALUES : PieceType → Int
  | .p => 10
  | .n => 30
  | .b => 30
  | .r => 50
  | .q => 90
  | .k => 900

/-- The external rules engine (chess.js) together with the static score of a
position, as consumed by the search: `moves` enumerates legal moves in a fixed
order, `play` is the position reached by a legal move (`game.move`, with
`game.undo` restoring the previous position), `isGameOver` is terminal-state
detection, `turn` is the side to move, and `eval` is the static score of a
position, i.e. `evaluateBoard` applied to the board of the position. -/
structure Engine (P M : Type) where
  moves : P → List M
  play : P → M → P
  isGameOver : P → Bool
  turn : P → Color
  eval : P → Int

/-- Search bounds: integers extended with the two JavaScript infinities. -/
abbrev Bnd : Type := WithBot (WithTop Int)

/-- An integer score viewed as a search bound. -/
def Bnd.ofInt (x : Int) : Bnd := ((x : WithTop Int) : Bnd)

/-- The difficulty tiers, declared identically in both engine files. -/
inductive Difficulty
  | Beginner | Easy | Hard | Master
deriving DecidableEq

/-- The body of the maximizing alpha-beta loop, shared by both engine files.
For each move: recurse on the child with the current bounds, take the running
maximum of the child scores into `best`, update alpha via `upd` (chessAI uses
`max alpha ev`, ai uses `max alpha bestEval`), and stop early once
`beta <= alpha`.  Mirrors the source loop line by line. -/
def abMaxLoop {P M : Type} (play : P → M → P) (next : P → Bnd → Bnd → Int)
    (upd : Bnd → Int → Int → Bnd) (g : P) :
    List M → Int → Bnd → Bnd → Int
  | [], best, _, _ => best
  | m :: ms, best, α, β =>
    let ev := next (play g m) α β
    let best' := max best ev
    let α' := upd α best' ev
    if β ≤ α' then best' else abMaxLoop play next upd g ms best' α' β

/-- The body of the minimizing alpha-beta loop, shared by both engine files;
symmetric to `abMaxLoop` with minimum and the beta bound. -/
def abMinLoop {P M : Type} (play : P → M → P) (next : P → Bnd → Bnd → Int)
    (upd : Bnd → Int → Int → Bnd) (g : P) :
    List M → Int → Bnd → Bnd → Int
  | [], best, _, _ => best
  | m :: ms, best, α, β =>
    let ev := next (play g m) α β
    let best' := min best ev
    let β' := upd β best' ev
    if β' ≤ α then best' else abMinLoop play next upd g ms best' α β'

namespace chessAI

/-- The pawn piece-square table of src/lib/chessAI.ts, row-major. -/
def PST_p : List Int :=
  [0,  0,  0,  0,  0,  0,  0,  0,
   5,  5,  5, -5, -5,  5,  5,  5,
   5, -5, -10,  0,  0, -10, -5,  5,
   0,  0,  0, 20, 20,  0,  0,  0,
   5,  5, 10, 25, 25, 10,  5,  5,
   10, 10, 20, 30, 30, 20, 10, 10,
   50, 50, 50, 50, 50, 50, 50, 50,
   0,  0,  0,  0,  0,  0,  0,  0]

/-- The knight piece-square table of src/lib/chessAI.ts, row-major. -/
def PST_n : List Int :=
  [-50,-40,-30,-30,-30,-30,-40,-50,
   -40,-20,  0,  5,  5,  0,-20,-40,
   -30,  5, 10, 15, 15, 10,  5,-30,
   -30,  0, 15, 20, 20, 15,  0,-30,
   -30,  5, 15, 20, 20, 15,  5,-30,
   -30,  0, 10, 15, 15, 10,  0,-30,
   -40,-20,  0,  0,  0,  0,-20,-40,
   -50,-40,-30,-30,-30,-30,-40,-50]

/-- `PST[t]?.[idx] || 0`: table lookup with 0 for kinds without a table and
for out-of-range indices. -/
def pst (t : PieceType) (idx : Nat) : Int :=
  match t with
  | .p => PST_p.getD idx 0
  | .n => PST_n.getD idx 0
  | _ => 0

/-- The contribution of the square `(i, j)` to `evaluateBoard` in
src/lib/chessAI.ts: material value plus, for pawns and knights, the table
bonus at index `i * 8 + j` for white and at the vertically mirrored index
`(7 - i) * 8 + j` for black, the total signed by color. -/
def squareScore (bd : Board) (i j : Nat) : Int :=
  match bd i j with
  | none => 0
  | some piece =>
    let value := PIECE_VALUES piece.type
    let posScore :=
      if piece.type = PieceType.p ∨ piece.type = PieceType.n then
        if piece.color = Color.w then pst piece.type (i * 8 + j)
        else pst piece.type ((7 - i) * 8 + j)
      else 0
    (value + posScore) * (if piece.color = Color.w then 1 else -1)

/-- `evaluateBoard` of src/lib/chessAI.ts: the accumulating double loop over
all 64 squares. -/
def evaluateBoard (bd : Board) : Int :=
  (List.range 8).foldl
    (fun acc i => (List.range 8).foldl (fun acc2 j => acc2 + squareScore bd i j) acc) 0

/-- `minimax` of src/lib/chessAI.ts.  At `depth === 0` or on a game-over
position it returns `-evaluateBoard(game)` (note the sign flip, present in
the source); otherwise it runs the alpha-beta loop with the running best
initialized to -99999 resp. 99999 and alpha updated with the child score. -/
def minimax {P M : Type} (E : Engine P M) : Nat → P → Bnd → Bnd → Bool → Int
  | 0, g, _, _, _ => -(E.eval g)
  | d + 1, g, α, β, maxing =>
    if E.isGameOver g then -(E.eval g)
    else if maxing then
      abMaxLoop E.play (fun p a b => minimax E d p a b false)
        (fun a _ e => max a (Bnd.ofInt e)) g (E.moves g) (-99999) α β
    else
      abMinLoop E.play (fun p a b => minimax E d p a b true)
        (fun b _ e => min b (Bnd.ofInt e)) g (E.moves g) 99999 α β

/-- The first scoring loop of `getBestMove` in src/lib/chessAI.ts: scores each
move with `minimax(game, depth - 1, -100000, 100000, !isWhite)` and tracks
`bestMove` and `bestValue`, updating them only in the white branch; the black
branch of the source consists of comments only.  The results are never read
afterwards. -/
def scorePass1 {P M : Type} (E : Engine P M) (g : P) (depth : Nat) (isWhite : Bool) :
    List M → Option M → Int → Option M × Int
  | [], bestMove, bestValue => (bestMove, bestValue)
  | m :: ms, bestMove, bestValue =>
    let boardValue :=
      minimax E (depth - 1) (E.play g m) (Bnd.ofInt (-100000)) (Bnd.ofInt 100000) (!isWhite)
    if isWhite then
      if boardValue > bestValue then scorePass1 E g depth isWhite ms (some m) boardValue
      else scorePass1 E g depth isWhite ms bestMove bestValue
    else
      scorePass1 E g depth isWhite ms bestMove bestValue

/-- The final re-run selection loop of `getBestMove` in src/lib/chessAI.ts:
`bestMoveFound` starts at `possibleMoves[0]`, `bestValFound` at `-Infinity`
for white and `Infinity` for black; each move is scored with
`minimax(game, depth - 1, -Infinity, Infinity, !isWhite)` and kept on a strict
comparison in the direction of the mover. -/
def rerunLoop {P M : Type} (E : Engine P M) (g : P) (depth : Nat) (isWhite : Bool) :
    List M → M → Bnd → M
  | [], bestMoveFound, _ => bestMoveFound
  | m :: ms, bestMoveFound, bestValFound =>
    let val := minimax E (depth - 1) (E.play g m) ⊥ ⊤ (!isWhite)
    if isWhite then
      if bestValFound < Bnd.ofInt val then rerunLoop E g depth isWhite ms m (Bnd.ofInt val)
      else rerunLoop E g depth isWhite ms bestMoveFound bestValFound
    else
      if Bnd.ofInt val < bestValFound then rerunLoop E g depth isWhite ms m (Bnd.ofInt val)
      else rerunLoop E g depth isWhite ms bestMoveFound bestValFound

/-- `getBestMove` of src/lib/chessAI.ts.  `rand` stands for the one random
draw `Math.floor(Math.random() * possibleMoves.length)` of the Beginner
branch, represented as an arbitrary natural reduced modulo the number of
moves; no other branch reads it.  Depths: Easy 1, Hard 3, Master 3.  The
first scoring loop runs but its result is dead; the returned move is the one
of the re-run loop. -/
def getBestMove {P M : Type} (E : Engine P M) (g : P) (difficulty : Difficulty)
    (rand : Nat) : Option M :=
  match E.moves g with
  | [] => none
  | m0 :: rest =>
    let possibleMoves := m0 :: rest
    if difficulty = Difficulty.Beginner then
      some (possibleMoves.getD (rand % possibleMoves.length) m0)
    else
      let depth : Nat :=
        match difficulty with
        | .Easy => 1
        | .Hard => 3
        | .Master => 3
        | .Beginner => 1
      let isWhite := E.turn g = Color.w
      let _firstPass := scorePass1 E g depth isWhite possibleMoves none (-99999)
      some (rerunLoop E g depth isWhite possibleMoves m0 (if isWhite then ⊥ else ⊤))

/-- `getBestMove` of src/lib/chessAI.ts with the dead first scoring loop
deleted and nothing else changed. -/
def getBestMoveRerunOnly {P M : Type} (E : Engine P M) (g : P) (difficulty : Difficulty)
    (rand : Nat) : Option M :=
  match E.moves g with
  | [] => none
  | m0 :: rest =>
    let possibleMoves := m0 :: rest
    if difficulty = Difficulty.Beginner then
      some (possibleMoves.getD (rand % possibleMoves.length) m0)
    else
      let depth : Nat :=
        match difficulty with
        | .Easy => 1
        | .Hard => 3
        | .Master => 3
        | .Beginner => 1
      let isWhite := E.turn g = Color.w
      some (rerunLoop E g depth isWhite possibleMoves m0 (if isWhite then ⊥ else ⊤))

end chessAI

namespace ai

/-- The contribution of the square `(i, j)` to `evaluateBoard` in
src/lib/ai.ts: material value only, signed by color; this file has no
piece-square tables. -/
def squareScore (bd : Board) (i j : Nat) : Int :=
  match bd i j with
  | none => 0
  | some piece =>
    let value := PIECE_VALUES piece.type
    if piece.color = Color.w then value else -value

/-- `evaluateBoard` of src/lib/ai.ts: the accumulating double loop over all
64 squares. -/
def evaluateBoard (bd : Board) : Int :=
  (List.range 8).foldl
    (fun acc i => (List.range 8).foldl (fun acc2 j => acc2 + squareScore bd i j) acc) 0

/-- `minimax` of src/lib/ai.ts.  Same terminal case `-evaluateBoard(game)` as
the chessAI version; the running best starts at -9999 resp. 9999 and the
bounds are updated with the running best (`alpha = max(alpha, bestEval)`,
`beta = min(beta, bestEval)`). -/
def minimax {P M : Type} (E : Engine P M) : Nat → P → Bnd → Bnd → Bool → Int
  | 0, g, _, _, _ => -(E.eval g)
  | d + 1, g, α, β, maxing =>
    if E.isGameOver g then -(E.eval g)
    else if maxing then
      abMaxLoop E.play (fun p a b => minimax E d p a b false)
        (fun a b _ => max a (Bnd.ofInt b)) g (E.moves g) (-9999) α β
    else
      abMinLoop E.play (fun p a b => minimax E d p a b true)
        (fun b bv _ => min b (Bnd.ofInt bv)) g (E.moves g) 9999 α β

/-- The selection loop of `getBestMove` in src/lib/ai.ts, iterating over the
shuffled move list.  After applying a move the source reads `game.turn()`
(the turn of the child position) both for the maximizing flag of the search
and for the selection direction.  The unused local constants of the source
(`isBlack`, `aiColor`, `moveValue`, and the empty conditional) are kept as
dead let bindings. -/
def selLoop {P M : Type} (E : Engine P M) (g : P) (depth : Nat) :
    List M → Option M → Int → Option M × Int
  | [], bestMove, bestValue => (bestMove, bestValue)
  | m :: ms, bestMove, bestValue =>
    let child := E.play g m
    let boardValue :=
      minimax E (depth - 1) child (Bnd.ofInt (-10000)) (Bnd.ofInt 10000)
        (E.turn child = Color.w)
    let _isBlack := E.turn child = Color.w
    let _aiColor := if E.turn child = Color.b then Color.w else Color.b
    let _moveValue := (if E.turn child = Color.w then (1 : Int) else -1) * boardValue
    if E.turn child = Color.b then
      if boardValue > bestValue then selLoop E g depth ms (some m) boardValue
      else selLoop E g depth ms bestMove bestValue
    else
      if bestMove.isNone ∨ boardValue < bestValue then selLoop E g depth ms (some m) boardValue
      else selLoop E g depth ms bestMove bestValue

/-- `getBestMove` of src/lib/ai.ts.  `rand` stands for the Beginner random
draw as in the chessAI version.  `shuffledMoves` stands for the result of the
in-place `moves.sort(() => Math.random() - 0.5)` pre-shuffle: a permutation
of the legal-move list whose order depends on the random sequence.  Since the
sort mutates `moves`, the fallback `moves[0]` of the source is the head of
the shuffled list.  Depths: Easy 2, Hard 3, Master 4. -/
def getBestMove {P M : Type} (E : Engine P M) (g : P) (difficulty : Difficulty)
    (rand : Nat) (shuffledMoves : List M) : Option M :=
  match E.moves g with
  | [] => none
  | m0 :: rest =>
    let moves := m0 :: rest
    if difficulty = Difficulty.Beginner then
      some (moves.getD (rand % moves.length) m0)
    else
      let depth : Nat :=
        match difficulty with
        | .Easy => 2
        | .Hard => 3
        | .Master => 4
        | .Beginner => 1
      let res := selLoop E g depth shuffledMoves none (-9999)
      match res.1 with
      | none => some (shuffledMoves.headD m0)
      | some bm => some bm

end ai

/-- Unpruned minimax over the same game tree, following the spec: at depth 0
or on a game-over position the terminal score of the code (`-eval`); at an
inner node the maximum (resp. minimum) over all children of the recursive
value, starting from the same initial constants `lo` (resp. `hi`) as the
pruned search, with every child visited and no bounds. -/
def plainMinimax {P M : Type} (E : Engine P M) (lo hi : Int) : Nat → P → Bool → Int
  | 0, g, _ => -(E.eval g)
  | d + 1, g, maxing =>
    if E.isGameOver g then -(E.eval g)
    else if maxing then
      (E.moves g).foldl (fun x m => max x (plainMinimax E lo hi d (E.play g m) false)) lo
    else
      (E.moves g).foldl (fun x m => min x (plainMinimax E lo hi d (E.play g m) true)) hi

/-! ### Stateful embedding

The source mutates a single `game` object through `game.move(m)` /
`game.undo()` pairs.  `GameSt` models that object: the current position plus
the undo history; `moveS` applies a move and pushes the old position, `undoS`
pops it.  The `S`-suffixed functions below are the state-passing translations
of the search and the selectors; the bridge lemmas later show they return the
pure values and leave the game object exactly as given (claim C10). -/

/-- The mutable game object: current position and undo stack. -/
structure GameSt (P : Type) where
  cur : P
  hist : List P
deriving DecidableEq

/-- `game.move(m)`: advance to the child position, remembering the old one. -/
def moveS {P M : Type} (E : Engine P M) (s : GameSt P) (m : M) : GameSt P :=
  ⟨E.play s.cur m, s.cur :: s.hist⟩

/-- `game.undo()`: restore the previous position (no-op on empty history). -/
def undoS {P : Type} (s : GameSt P) : GameSt P :=
  match s.hist with
  | [] => s
  | p :: h => ⟨p, h⟩

/-- State-passing form of `abMaxLoop`: move, recurse, undo, update, maybe
break — in the order of the source. -/
def abMaxLoopS {P M : Type} (E : Engine P M) (next : GameSt P → Bnd → Bnd → Int × GameSt P)
    (upd : Bnd → Int → Int → Bnd) :
    List M → GameSt P → Int → Bnd → Bnd → Int × GameSt P
  | [], s, best, _, _ => (best, s)
  | m :: ms, s, best, α, β =>
    let s1 := moveS E s m
    let r := next s1 α β
    let s2 := undoS r.2
    let best' := max best r.1
    let α' := upd α best' r.1
    if β ≤ α' then (best', s2) else abMaxLoopS E next upd ms s2 best' α' β

/-- State-passing form of `abMinLoop`. -/
def abMinLoopS {P M : Type} (E : Engine P M) (next : GameSt P → Bnd → Bnd → Int × GameSt P)
    (upd : Bnd → Int → Int → Bnd) :
    List M → GameSt P → Int → Bnd → Bnd → Int × GameSt P
  | [], s, best, _, _ => (best, s)
  | m :: ms, s, best, α, β =>
    let s1 := moveS E s m
    let r := next s1 α β
    let s2 := undoS r.2
    let best' := min best r.1
    let β' := upd β best' r.1
    if β' ≤ α then (best', s2) else abMinLoopS E next upd ms s2 best' α β'

/-- State-passing form of `chessAI.minimax` on the mutable game object. -/
def chessAI.minimaxS {P M : Type} (E : Engine P M) :
    Nat → GameSt P → Bnd → Bnd → Bool → Int × GameSt P
  | 0, s, _, _, _ => (-(E.eval s.cur), s)
  | d + 1, s, α, β, maxing =>
    if E.isGameOver s.cur then (-(E.eval s.cur), s)
    else if maxing then
      abMaxLoopS E (fun s' a b => chessAI.minimaxS E d s' a b false)
        (fun a _ e => max a (Bnd.ofInt e)) (E.moves s.cur) s (-99999) α β
    else
      abMinLoopS E (fun s' a b => chessAI.minimaxS E d s' a b true)
        (fun b _ e => min b (Bnd.ofInt e)) (E.moves s.cur) s 99999 α β

/-- State-passing form of `ai.minimax` on the mutable game object. -/
def ai.minimaxS {P M : Type} (E : Engine P M) :
    Nat → GameSt P → Bnd → Bnd → Bool → Int × GameSt P
  | 0, s, _, _, _ => (-(E.eval s.cur), s)
  | d + 1, s, α, β, maxing =>
    if E.isGameOver s.cur then (-(E.eval s.cur), s)
    else if maxing then
      abMaxLoopS E (fun s' a b => ai.minimaxS E d s' a b false)
        (fun a b _ => max a (Bnd.ofInt b)) (E.moves s.cur) s (-9999) α β
    else
      abMinLoopS E (fun s' a b => ai.minimaxS E d s' a b true)
        (fun b bv _ => min b (Bnd.ofInt bv)) (E.moves s.cur) s 9999 α β

/-- State-passing form of `chessAI.scorePass1`. -/
def chessAI.scorePass1S {P M : Type} (E : Engine P M) (depth : Nat) (isWhite : Bool) :
    List M → GameSt P → Option M → Int → (Option M × Int) × GameSt P
  | [], s, bestMove, bestValue => ((bestMove, bestValue), s)
  | m :: ms, s, bestMove, bestValue =>
    let s1 := moveS E s m
    let r := chessAI.minimaxS E (depth - 1) s1 (Bnd.ofInt (-100000)) (Bnd.ofInt 100000) (!isWhite)
    let s2 := undoS r.2
    if isWhite then
      if r.1 > bestValue then chessAI.scorePass1S E depth isWhite ms s2 (some m) r.1
      else chessAI.scorePass1S E depth isWhite ms s2 bestMove bestValue
    else
      chessAI.scorePass1S E depth isWhite ms s2 bestMove bestValue

/-- State-passing form of `chessAI.rerunLoop`. -/
def chessAI.rerunLoopS {P M : Type} (E : Engine P M) (depth : Nat) (isWhite : Bool) :
    List M → GameSt P → M → Bnd → M × GameSt P
  | [], s, bestMoveFound, _ => (bestMoveFound, s)
  | m :: ms, s, bestMoveFound, bestValFound =>
    let s1 := moveS E s m
    let r := chessAI.minimaxS E (depth - 1) s1 ⊥ ⊤ (!isWhite)
    let s2 := undoS r.2
    if isWhite then
      if bestValFound < Bnd.ofInt r.1 then chessAI.rerunLoopS E depth isWhite ms s2 m (Bnd.ofInt r.1)
      else chessAI.rerunLoopS E depth isWhite ms s2 bestMoveFound bestValFound
    else
      if Bnd.ofInt r.1 < bestValFound then chessAI.rerunLoopS E depth isWhite ms s2 m (Bnd.ofInt r.1)
      else chessAI.rerunLoopS E depth isWhite ms s2 bestMoveFound bestValFound

/-- State-passing form of `chessAI.getBestMove` on the mutable game object. -/
def chessAI.getBestMoveS {P M : Type} (E : Engine P M) (s : GameSt P)
    (difficulty : Difficulty) (rand : Nat) : Option M × GameSt P :=
  match E.moves s.cur with
  | [] => (none, s)
  | m0 :: rest =>
    let possibleMoves := m0 :: rest
    if difficulty = Difficulty.Beginner then
      (some (possibleMoves.getD (rand % possibleMoves.length) m0), s)
    else
      let depth : Nat :=
        match difficulty with
        | .Easy => 1
        | .Hard => 3
        | .Master => 3
        | .Beginner => 1
      let isWhite := E.turn s.cur = Color.w
      let fp := chessAI.scorePass1S E depth isWhite possibleMoves s none (-99999)
      let rr := chessAI.rerunLoopS E depth isWhite possibleMoves fp.2 m0
        (if isWhite then ⊥ else ⊤)
      (some rr.1, rr.2)

/-- State-passing form of `ai.selLoop`. -/
def ai.selLoopS {P M : Type} (E : Engine P M) (depth : Nat) :
    List M → GameSt P → Option M → Int → (Option M × Int) × GameSt P
  | [], s, bestMove, bestValue => ((bestMove, bestValue), s)
  | m :: ms, s, bestMove, bestValue =>
    let s1 := moveS E s m
    let r := ai.minimaxS E (depth - 1) s1 (Bnd.ofInt (-10000)) (Bnd.ofInt 10000)
      (E.turn s1.cur = Color.w)
    let s2 := undoS r.2
    if E.turn s1.cur = Color.b then
      if r.1 > bestValue then ai.selLoopS E depth ms s2 (some m) r.1
      else ai.selLoopS E depth ms s2 bestMove bestValue
    else
      if bestMove.isNone ∨ r.1 < bestValue then ai.selLoopS E depth ms s2 (some m) r.1
      else ai.selLoopS E depth ms s2 bestMove bestValue

/-- State-passing form of `ai.getBestMove` on the mutable game object. -/
def ai.getBestMoveS {P M : Type} (E : Engine P M) (s : GameSt P)
    (difficulty : Difficulty) (rand : Nat) (shuffledMoves : List M) :
    Option M × GameSt P :=
  match E.moves s.cur with
  | [] => (none, s)
  | m0 :: rest =>
    let moves := m0 :: rest
    if difficulty = Difficulty.Beginner then
      (some (moves.getD (rand % moves.length) m0), s)
    else
      let depth : Nat :=
        match difficulty with
        | .Easy => 2
        | .Hard => 3
        | .Master => 4
        | .Beginner => 1
      let res := ai.selLoopS E depth shuffledMoves s none (-9999)
      match res.1.1 with
      | none => (some (shuffledMoves.headD m0), res.2)
      | some bm => (some bm, res.2)

/-! ### Specification-side definitions and concrete instances -/

/-- Swap a color to the opposite side. -/
def flipColor : Color → Color
  | .w => .b
  | .b => .w

/-- Swap a piece to the opposite side. -/
def flipPiece (pc : Piece) : Piece := ⟨pc.type, flipColor pc.color⟩

/-- The color-mirrored counterpart of a board: every piece swapped to the
opposite side and the board flipped vertically (row `i` exchanged with row
`7 - i`). -/
def mirrorBoard (bd : Board) : Board := fun i j => (bd (7 - i) j).map flipPiece

/-- The contribution of one piece on square `(i, j)` exactly as the claim
words it: its material value plus, for pawns and knights only, a positional
bonus looked up at the square index for white and at the vertically mirrored
index for black, the whole signed positive for white (the reference side) and
negative otherwise. -/
def claimPieceScore (pc : Piece) (i j : Nat) : Int :=
  let material := PIECE_VALUES pc.type
  let bonus :=
    if pc.type = PieceType.p ∨ pc.type = PieceType.n then
      if pc.color = Color.w then chessAI.pst pc.type (i * 8 + j)
      else chessAI.pst pc.type ((7 - i) * 8 + j)
    else 0
  if pc.color = Color.w then material + bonus else -(material + bonus)

/-- The claim formula for the whole evaluator: the sum over all pieces of the
material value plus the pawn/knight positional bonus, signed by side. -/
def claimEval (bd : Board) : Int :=
  ∑ i in Finset.range 8, ∑ j in Finset.range 8,
    (match bd i j with
     | none => 0
     | some pc => claimPieceScore pc i j)

/-- The material-only sum: what remains of the claim formula when no piece
kind has a positional table. -/
def claimEvalMaterialOnly (bd : Board) : Int :=
  ∑ i in Finset.range 8, ∑ j in Finset.range 8,
    (match bd i j with
     | none => 0
     | some pc =>
       if pc.color = Color.w then PIECE_VALUES pc.type else -(PIECE_VALUES pc.type))

/-- The Knuth-Moore relation between the value `r` returned by a search with
window `(a, b)` and the unpruned value `v` of the same node: a result strictly
inside the window is exact, a result at or below alpha bounds `v` from above,
a result at or beyond beta bounds `v` from below. -/
def KM (r v : Int) (a b : Bnd) : Prop :=
  (Bnd.ofInt r ≤ a → v ≤ r) ∧ (b ≤ Bnd.ofInt r → r ≤ v) ∧
    (a < Bnd.ofInt r → Bnd.ofInt r < b → r = v)

/-- A board holding a lone white rook: material 50, no positional table. -/
def bLoneRook : Board := fun i j =>
  if i = 0 ∧ j = 0 then some ⟨PieceType.r, Color.w⟩ else none

/-- A board holding a lone white pawn on square `(3, 3)`, whose pawn-table
bonus is 20. -/
def bPawn33 : Board := fun i j =>
  if i = 3 ∧ j = 3 then some ⟨PieceType.p, Color.w⟩ else none

/-- Root board of the capture scenario: a white rook and an undefended black
queen.  Material: 50 - 90 = -40. -/
def bRoot : Board := fun i j =>
  if i = 0 ∧ j = 0 then some ⟨PieceType.r, Color.w⟩
  else if i = 1 ∧ j = 1 then some ⟨PieceType.q, Color.b⟩ else none

/-- Board after the rook captures the queen.  Material: 50. -/
def bCap : Board := fun i j =>
  if i = 1 ∧ j = 1 then some ⟨PieceType.r, Color.w⟩ else none

/-- Board after the quiet rook move: same material as the root. -/
def bQuiet : Board := fun i j =>
  if i = 0 ∧ j = 1 then some ⟨PieceType.r, Color.w⟩
  else if i = 1 ∧ j = 1 then some ⟨PieceType.q, Color.b⟩ else none

/-- Boards of the three positions of the capture scenario. -/
def ceBoard : Nat → Board := fun p =>
  if p = 1 then bCap else if p = 2 then bQuiet else bRoot

/-- A concrete rules-engine instance: white to move at position 0 with
exactly two legal moves, the capture of the undefended queen (child 1, a
material win of +90 for the mover) and a quiet move (child 2); both children
are terminal.  Scores come from the chessAI evaluator on the boards above. -/
def CE : Engine Nat String where
  moves := fun p => if p = 0 then ["Rxb7", "Rb1"] else []
  play := fun p m => if p = 0 then (if m = "Rxb7" then 1 else 2) else p
  isGameOver := fun p => decide (p ≠ 0)
  turn := fun p => if p = 0 then Color.w else Color.b
  eval := fun p => chessAI.evaluateBoard (ceBoard p)

/-- A concrete rules-engine instance with two legal moves whose children have
identical scores: a position with tied-best candidates. -/
def TIE : Engine Nat String where
  moves := fun p => if p = 0 then ["a", "b"] else []
  play := fun p m => if p = 0 then (if m = "a" then 1 else 2) else p
  isGameOver := fun p => decide (p ≠ 0)
  turn := fun p => if p = 0 then Color.w else Color.b
  eval := fun _ => 0

/-- A concrete rules-engine instance in which every position other than the
root has no legal moves and is reported game-over, as chess guarantees. -/
def NOMOVES : Engine Nat String where
  moves := fun p => if p = 0 then ["m"] else []
  play := fun p _ => p + 1
  isGameOver := fun p => decide (p ≠ 0)
  turn := fun _ => Color.w
  eval := fun p => (p : Int)

/-- A degenerate rules-engine instance over raw boards, every position
terminal, scored by the chessAI evaluator; used to evaluate the terminal case
of the search on explicit boards. -/
def EBchess : Engine Board String where
  moves := fun _ => []
  play := fun b _ => b
  isGameOver := fun _ => true
  turn := fun _ => Color.w
  eval := fun b => chessAI.evaluateBoard b

/-- As `EBchess` with the ai evaluator. -/
def EBai : Engine Board String where
  moves := fun _ => []
  play := fun b _ => b
  isGameOver := fun _ => true
  turn := fun _ => Color.w
  eval := fun b => ai.evaluateBoard b

/-! ### Bridge lemmas: the stateful code computes the pure values and
restores the game object. -/

theorem undoS_moveS {P M : Type} (E : Engine P M) (s : GameSt P) (m : M) :
    undoS (moveS E s m) = s := by
  cases s
  rfl

theorem moveS_cur {P M : Type} (E : Engine P M) (s : GameSt P) (m : M) :
    (moveS E s m).cur = E.play s.cur m := rfl

theorem abMaxLoopS_bridge {P M : Type} (E : Engine P M)
    (nextS : GameSt P → Bnd → Bnd → Int × GameSt P) (nextP : P → Bnd → Bnd → Int)
    (upd : Bnd → Int → Int → Bnd)
    (h : ∀ s a b, nextS s a b = (nextP s.cur a b, s)) :
    ∀ (ms : List M) (s : GameSt P) (best : Int) (α β : Bnd),
      abMaxLoopS E nextS upd ms s best α β =
        (abMaxLoop E.play nextP upd s.cur ms best α β, s) := by
  intro ms
  induction ms with
  | nil => intro s best α β; rfl
  | cons m ms ih =>
    intro s best α β
    have h0 := h (moveS E s m) α β
    have h1 : (nextS (moveS E s m) α β).1 = nextP ((moveS E s m).cur) α β :=
      congrArg Prod.fst h0
    have h2 : (nextS (moveS E s m) α β).2 = moveS E s m :=
      congrArg Prod.snd h0
    simp only [abMaxLoopS, abMaxLoop, h1, h2, moveS_cur, undoS_moveS]
    split
    · rfl
    · exact ih s _ _ β

theorem abMinLoopS_bridge {P M : Type} (E : Engine P M)
    (nextS : GameSt P → Bnd → Bnd → Int × GameSt P) (nextP : P → Bnd → Bnd → Int)
    (upd : Bnd → Int → Int → Bnd)
    (h : ∀ s a b, nextS s a b = (nextP s.cur a b, s)) :
    ∀ (ms : List M) (s : GameSt P) (best : Int) (α β : Bnd),
      abMinLoopS E nextS upd ms s best α β =
        (abMinLoop E.play nextP upd s.cur ms best α β, s) := by
  intro ms
  induction ms with
  | nil => intro s best α β; rfl
  | cons m ms ih =>
    intro s best α β
    have h0 := h (moveS E s m) α β
    have h1 : (nextS (moveS E s m) α β).1 = nextP ((moveS E s m).cur) α β :=
      congrArg Prod.fst h0
    have h2 : (nextS (moveS E s m) α β).2 = moveS E s m :=
      congrArg Prod.snd h0
    simp only [abMinLoopS, abMinLoop, h1, h2, moveS_cur, undoS_moveS]
    split
    · rfl
    · exact ih s _ α _

theorem chessAI_minimaxS_bridge {P M : Type} (E : Engine P M) :
    ∀ (d : Nat) (s : GameSt P) (α β : Bnd) (maxing : Bool),
      chessAI.minimaxS E d s α β maxing = (chessAI.minimax E d s.cur α β maxing, s) := by
  intro d
  induction d with
  | zero => intro s α β maxing; rfl
  | succ d ih =>
    intro s α β maxing
    simp only [chessAI.minimaxS, chessAI.minimax]
    split
    · rfl
    · split
      · exact abMaxLoopS_bridge E _ _ _ (fun s' a b => ih s' a b false) _ s _ α β
      · exact abMinLoopS_bridge E _ _ _ (fun s' a b => ih s' a b true) _ s _ α β

theorem ai_minimaxS_bridge {P M : Type} (E : Engine P M) :
    ∀ (d : Nat) (s : GameSt P) (α β : Bnd) (maxing : Bool),
      ai.minimaxS E d s α β maxing = (ai.minimax E d s.cur α β maxing, s) := by
  intro d
  induction d with
  | zero => intro s α β maxing; rfl
  | succ d ih =>
    intro s α β maxing
    simp only [ai.minimaxS, ai.minimax]
    split
    · rfl
    · split
      · exact abMaxLoopS_bridge E _ _ _ (fun s' a b => ih s' a b false) _ s _ α β
      · exact abMinLoopS_bridge E _ _ _ (fun s' a b => ih s' a b true) _ s _ α β

theorem chessAI_scorePass1S_bridge {P M : Type} (E : Engine P M) (depth : Nat) (isWhite : Bool) :
    ∀ (ms : List M) (s : GameSt P) (bm : Option M) (bv : Int),
      chessAI.scorePass1S E depth isWhite ms s bm bv =
        (chessAI.scorePass1 E s.cur depth isWhite ms bm bv, s) := by
  intro ms
  induction ms with
  | nil => intro s bm bv; rfl
  | cons m ms ih =>
    intro s bm bv
    have h0 := chessAI_minimaxS_bridge E (depth - 1) (moveS E s m) (Bnd.ofInt (-100000))
      (Bnd.ofInt 100000) (!isWhite)
    have h1 : (chessAI.minimaxS E (depth - 1) (moveS E s m) (Bnd.ofInt (-100000))
        (Bnd.ofInt 100000) (!isWhite)).1 =
        chessAI.minimax E (depth - 1) ((moveS E s m).cur) (Bnd.ofInt (-100000))
          (Bnd.ofInt 100000) (!isWhite) :=
      congrArg Prod.fst h0
    have h2 : (chessAI.minimaxS E (depth - 1) (moveS E s m) (Bnd.ofInt (-100000))
        (Bnd.ofInt 100000) (!isWhite)).2 = moveS E s m :=
      congrArg Prod.snd h0
    simp only [chessAI.scorePass1S, chessAI.scorePass1, h1, h2, moveS_cur, undoS_moveS]
    split
    · split
      · exact ih s _ _
      · exact ih s _ _
    · exact ih s _ _

theorem chessAI_rerunLoopS_bridge {P M : Type} (E : Engine P M) (depth : Nat) (isWhite : Bool) :
    ∀ (ms : List M) (s : GameSt P) (bm : M) (bv : Bnd),
      chessAI.rerunLoopS E depth isWhite ms s bm bv =
        (chessAI.rerunLoop E s.cur depth isWhite ms bm bv, s) := by
  intro ms
  induction ms with
  | nil => intro s bm bv; rfl
  | cons m ms ih =>
    intro s bm bv
    have h0 := chessAI_minimaxS_bridge E (depth - 1) (moveS E s m) ⊥ ⊤ (!isWhite)
    have h1 : (chessAI.minimaxS E (depth - 1) (moveS E s m) ⊥ ⊤ (!isWhite)).1 =
        chessAI.minimax E (depth - 1) ((moveS E s m).cur) ⊥ ⊤ (!isWhite) :=
      congrArg Prod.fst h0
    have h2 : (chessAI.minimaxS E (depth - 1) (moveS E s m) ⊥ ⊤ (!isWhite)).2 =
        moveS E s m :=
      congrArg Prod.snd h0
    simp only [chessAI.rerunLoopS, chessAI.rerunLoop, h1, h2, moveS_cur, undoS_moveS]
    split
    · split
      · exact ih s _ _
      · exact ih s _ _
    · split
      · exact ih s _ _
      · exact ih s _ _

theorem ai_selLoopS_bridge {P M : Type} (E : Engine P M) (depth : Nat) :
    ∀ (ms : List M) (s : GameSt P) (bm : Option M) (bv : Int),
      ai.selLoopS E depth ms s bm bv = (ai.selLoop E s.cur depth ms bm bv, s) := by
  intro ms
  induction ms with
  | nil => intro s bm bv; rfl
  | cons m ms ih =>
    intro s bm bv
    have h0 := ai_minimaxS_bridge E (depth - 1) (moveS E s m) (Bnd.ofInt (-10000))
      (Bnd.ofInt 10000) (decide (E.turn (E.play s.cur m) = Color.w))
    have h1 : (ai.minimaxS E (depth - 1) (moveS E s m) (Bnd.ofInt (-10000)) (Bnd.ofInt 10000)
        (decide (E.turn (E.play s.cur m) = Color.w))).1 =
        ai.minimax E (depth - 1) ((moveS E s m).cur) (Bnd.ofInt (-10000)) (Bnd.ofInt 10000)
          (decide (E.turn (E.play s.cur m) = Color.w)) :=
      congrArg Prod.fst h0
    have h2 : (ai.minimaxS E (depth - 1) (moveS E s m) (Bnd.ofInt (-10000)) (Bnd.ofInt 10000)
        (decide (E.turn (E.play s.cur m) = Color.w))).2 = moveS E s m :=
      congrArg Prod.snd h0
    simp only [ai.selLoopS, ai.selLoop, moveS_cur, h1, h2, undoS_moveS]
    split
    · split
      · exact ih s _ _
      · exact ih s _ _
    · split
      · exact ih s _ _
      · exact ih s _ _

theorem chessAI_getBestMoveS_bridge {P M : Type} (E : Engine P M) (s : GameSt P)
    (difficulty : Difficulty) (rand : Nat) :
    chessAI.getBestMoveS E s difficulty rand =
      (chessAI.getBestMove E s.cur difficulty rand, s) := by
  simp only [chessAI.getBestMoveS, chessAI.getBestMove]
  cases h : E.moves s.cur with
  | nil => rfl
  | cons m0 rest =>
    simp only [chessAI_scorePass1S_bridge, chessAI_rerunLoopS_bridge]
    split <;> rfl

theorem ai_getBestMoveS_bridge {P M : Type} (E : Engine P M) (s : GameSt P)
    (difficulty : Difficulty) (rand : Nat) (shuffledMoves : List M) :
    ai.getBestMoveS E s difficulty rand shuffledMoves =
      (ai.getBestMove E s.cur difficulty rand shuffledMoves, s) := by
  simp only [ai.getBestMoveS, ai.getBestMove]
  cases h : E.moves s.cur with
  | nil => rfl
  | cons m0 rest =>
    simp only [ai_selLoopS_bridge]
    split
    · rfl
    · split <;> rfl

/-! ### The evaluator as a sum over squares -/

theorem foldl_add_eq (f : Nat → Int) :
    ∀ (l : List Nat) (init : Int),
      l.foldl (fun acc i => acc + f i) init = init + (l.map f).sum := by
  intro l
  induction l with
  | nil => intro init; simp
  | cons x xs ih => intro init; simp [ih, add_assoc]

theorem map_range_sum (f : Nat → Int) (n : Nat) :
    ((List.range n).map f).sum = ∑ i in Finset.range n, f i := by
  induction n with
  | zero => simp
  | succ n ih => simp [List.range_succ, Finset.sum_range_succ, ih]

theorem chessAI_evaluateBoard_eq_sum (bd : Board) :
    chessAI.evaluateBoard bd =
      ∑ i in Finset.range 8, ∑ j in Finset.range 8, chessAI.squareScore bd i j := by
  unfold chessAI.evaluateBoard
  have hin : ∀ (acc : Int) (i : Nat),
      (List.range 8).foldl (fun acc2 j => acc2 + chessAI.squareScore bd i j) acc =
        acc + ∑ j in Finset.range 8, chessAI.squareScore bd i j := by
    intro acc i
    rw [foldl_add_eq (fun j => chessAI.squareScore bd i j), map_range_sum]
  simp only [hin]
  rw [foldl_add_eq (fun i => ∑ j in Finset.range 8, chessAI.squareScore bd i j),
    map_range_sum, zero_add]

theorem ai_evaluateBoard_eq_sum (bd : Board) :
    ai.evaluateBoard bd =
      ∑ i in Finset.range 8, ∑ j in Finset.range 8, ai.squareScore bd i j := by
  unfold ai.evaluateBoard
  have hin : ∀ (acc : Int) (i : Nat),
      (List.range 8).foldl (fun acc2 j => acc2 + ai.squareScore bd i j) acc =
        acc + ∑ j in Finset.range 8, ai.squareScore bd i j := by
    intro acc i
    rw [foldl_add_eq (fun j => ai.squareScore bd i j), map_range_sum]
  simp only [hin]
  rw [foldl_add_eq (fun i => ∑ j in Finset.range 8, ai.squareScore bd i j),
    map_range_sum, zero_add]

theorem chessAI_squareScore_eq_claim (bd : Board) (i j : Nat) :
    chessAI.squareScore bd i j =
      (match bd i j with
       | none => 0
       | some pc => claimPieceScore pc i j) := by
  unfold chessAI.squareScore claimPieceScore
  cases bd i j with
  | none => rfl
  | some pc =>
    cases pc with
    | mk t c => cases c <;> simp

theorem ai_squareScore_eq_material (bd : Board) (i j : Nat) :
    ai.squareScore bd i j =
      (match bd i j with
       | none => 0
       | some pc =>
         if pc.color = Color.w then PIECE_VALUES pc.type else -(PIECE_VALUES pc.type)) := by
  unfold ai.squareScore
  cases bd i j with
  | none => rfl
  | some pc => rfl

theorem chessAI_squareScore_mirror (bd : Board) (i j : Nat) (hi : i < 8) :
    chessAI.squareScore (mirrorBoard bd) i j = -(chessAI.squareScore bd (7 - i) j) := by
  have h7 : 7 - (7 - i) = i := by omega
  unfold chessAI.squareScore mirrorBoard
  cases hbd : bd (7 - i) j with
  | none => simp [hbd]
  | some pc =>
    cases pc with
    | mk t c =>
      cases c with
      | w => simp [hbd, flipPiece, flipColor, h7]
      | b => simp [hbd, flipPiece, flipColor, h7]

/-! ### Alpha-beta pruning returns the unpruned minimax value -/

theorem Bnd.ofInt_le_ofInt {x y : Int} : Bnd.ofInt x ≤ Bnd.ofInt y ↔ x ≤ y := by
  simp [Bnd.ofInt]

theorem Bnd.ofInt_lt_ofInt {x y : Int} : Bnd.ofInt x < Bnd.ofInt y ↔ x < y := by
  simp [Bnd.ofInt]

theorem Bnd.not_ofInt_le_bot (x : Int) : ¬ Bnd.ofInt x ≤ (⊥ : Bnd) := by
  simp [Bnd.ofInt]

theorem Bnd.not_top_le_ofInt (x : Int) : ¬ (⊤ : Bnd) ≤ Bnd.ofInt x := by
  simp [Bnd.ofInt, top_le_iff]

theorem Bnd.bot_lt_top : (⊥ : Bnd) < (⊤ : Bnd) := by
  decide

section KMLoops

variable {P M : Type} (play : P → M → P) (next : P → Bnd → Bnd → Int) (pv : P → Int)
variable (upd : Bnd → Int → Int → Bnd) (g : P)

theorem foldlMax_ge :
    ∀ (ms : List M) (b : Int), b ≤ ms.foldl (fun x m => max x (pv (play g m))) b := by
  intro ms
  induction ms with
  | nil => intro b; exact le_refl b
  | cons m ms ih =>
    intro b
    exact le_trans (le_max_left b (pv (play g m))) (ih _)

theorem foldlMax_init_max :
    ∀ (ms : List M) (b c : Int),
      ms.foldl (fun x m => max x (pv (play g m))) (max b c) =
        max (ms.foldl (fun x m => max x (pv (play g m))) b) c := by
  intro ms
  induction ms with
  | nil => intro b c; rfl
  | cons m ms ih =>
    intro b c
    simp only [List.foldl_cons]
    rw [max_assoc, max_comm c (pv (play g m)), ← max_assoc]
    exact ih _ c

theorem foldlMin_le :
    ∀ (ms : List M) (b : Int), ms.foldl (fun x m => min x (pv (play g m))) b ≤ b := by
  intro ms
  induction ms with
  | nil => intro b; exact le_refl b
  | cons m ms ih =>
    intro b
    exact le_trans (ih _) (min_le_left b (pv (play g m)))

theorem foldlMin_init_min :
    ∀ (ms : List M) (b c : Int),
      ms.foldl (fun x m => min x (pv (play g m))) (min b c) =
        min (ms.foldl (fun x m => min x (pv (play g m))) b) c := by
  intro ms
  induction ms with
  | nil => intro b c; rfl
  | cons m ms ih =>
    intro b c
    simp only [List.foldl_cons]
    rw [min_assoc, min_comm c (pv (play g m)), ← min_assoc]
    exact ih _ c

theorem abMaxLoop_ge :
    ∀ (ms : List M) (best : Int) (α β : Bnd),
      best ≤ abMaxLoop play next upd g ms best α β := by
  intro ms
  induction ms with
  | nil => intro best α β; exact le_refl best
  | cons m ms ih =>
    intro best α β
    simp only [abMaxLoop]
    split
    · exact le_max_left _ _
    · exact le_trans (le_max_left _ _) (ih _ _ β)

theorem abMinLoop_le :
    ∀ (ms : List M) (best : Int) (α β : Bnd),
      abMinLoop play next upd g ms best α β ≤ best := by
  intro ms
  induction ms with
  | nil => intro best α β; exact le_refl best
  | cons m ms ih =>
    intro best α β
    simp only [abMinLoop]
    split
    · exact min_le_left _ _
    · exact le_trans (ih _ α _) (min_le_left _ _)

theorem abMaxLoop_KM
    (hupd : ∀ (a : Bnd) (bv e : Int), e ≤ bv →
      max a (Bnd.ofInt e) ≤ upd a bv e ∧ upd a bv e ≤ max a (Bnd.ofInt bv))
    (hnext : ∀ p (a b : Bnd), a < b → KM (next p a b) (pv p) a b) :
    ∀ (ms : List M) (best : Int) (α β : Bnd), α < β →
      KM (abMaxLoop play next upd g ms best α β)
        (ms.foldl (fun x m => max x (pv (play g m))) best) α β := by
  intro ms
  induction ms with
  | nil =>
    intro best α β hab
    exact ⟨fun _ => le_refl _, fun _ => le_refl _, fun _ _ => rfl⟩
  | cons m ms ih =>
    intro best α β hab
    obtain ⟨ca, cb, cc⟩ := hnext (play g m) α β hab
    simp only [abMaxLoop, List.foldl_cons]
    set v := pv (play g m) with hvd
    set ev := next (play g m) α β with hevd
    set best' := max best ev with hbest'
    set α' := upd α best' ev with hα'd
    set F0 := ms.foldl (fun x m => max x (pv (play g m))) best with hF0
    have hevb : ev ≤ best' := by rw [hbest']; exact le_max_right best ev
    obtain ⟨hlow, hhigh⟩ := hupd α best' ev hevb
    have hF : ms.foldl (fun x m => max x (pv (play g m))) (max best v) = max F0 v := by
      rw [hF0]
      exact foldlMax_init_max play pv g ms best v
    rw [hF]
    by_cases hbr : β ≤ α'
    · rw [if_pos hbr]
      have hβb : β ≤ Bnd.ofInt best' := by
        rcases le_max_iff.mp (le_trans hbr hhigh) with h | h
        · exact absurd hab (not_lt.mpr h)
        · exact h
      refine ⟨?_, ?_, ?_⟩
      · intro h
        exact absurd hab (not_lt.mpr (le_trans hβb h))
      · intro _
        rcases le_total best ev with hbe | hbe
        · have hbev : best' = ev := by rw [hbest']; exact max_eq_right hbe
          have hv : ev ≤ v := cb (by rw [← hbev]; exact hβb)
          rw [hbev]
          exact le_trans hv (le_max_right F0 v)
        · have hbev : best' = best := by rw [hbest']; exact max_eq_left hbe
          rw [hbev]
          exact le_trans (foldlMax_ge play pv g ms best) (le_max_left F0 v)
      · intro _ h2
        exact absurd (lt_of_le_of_lt hβb h2) (lt_irrefl β)
    · rw [if_neg hbr]
      have hα'β : α' < β := not_le.mp hbr
      obtain ⟨ia, ib, ic⟩ := ih best' α' β hα'β
      have hF' : ms.foldl (fun x m => max x (pv (play g m))) best' = max F0 ev := by
        rw [hbest', hF0]
        exact foldlMax_init_max play pv g ms best ev
      rw [hF'] at ia ib ic
      have hαα' : α ≤ α' := le_trans (le_max_left α (Bnd.ofInt ev)) hlow
      have hevα' : Bnd.ofInt ev ≤ α' := le_trans (le_max_right α (Bnd.ofInt ev)) hlow
      refine ⟨?_, ?_, ?_⟩
      · intro h
        have hF'le : max F0 ev ≤ abMaxLoop play next upd g ms best' α' β :=
          ia (le_trans h hαα')
        have hev_rec : ev ≤ abMaxLoop play next upd g ms best' α' β :=
          le_trans (le_max_right F0 ev) hF'le
        have hv : v ≤ ev := ca (le_trans (Bnd.ofInt_le_ofInt.mpr hev_rec) h)
        exact max_le (le_trans (le_max_left F0 ev) hF'le) (le_trans hv hev_rec)
      · intro h
        have hrec : abMaxLoop play next upd g ms best' α' β ≤ max F0 ev := ib h
        rcases le_total ev F0 with hef | hef
        · rw [max_eq_left hef] at hrec
          exact le_trans hrec (le_max_left F0 v)
        · rw [max_eq_right hef] at hrec
          have hv : ev ≤ v := cb (le_trans h (Bnd.ofInt_le_ofInt.mpr hrec))
          exact le_trans (le_trans hrec hv) (le_max_right F0 v)
      · intro h1 h2
        by_cases hc : Bnd.ofInt (abMaxLoop play next upd g ms best' α' β) ≤ α'
        · have hF'le : max F0 ev ≤ abMaxLoop play next upd g ms best' α' β := ia hc
          have hrb : best' ≤ abMaxLoop play next upd g ms best' α' β :=
            abMaxLoop_ge play next upd g ms best' α' β
          rcases le_max_iff.mp (le_trans hc hhigh) with h | h
          · exact absurd h1 (not_lt.mpr h)
          · have hrbest : abMaxLoop play next upd g ms best' α' β = best' :=
              le_antisymm (Bnd.ofInt_le_ofInt.mp h) hrb
            have hge : best' ≤ max F0 ev := by
              rw [hbest']
              exact max_le_max (foldlMax_ge play pv g ms best) (le_refl ev)
            have hback : abMaxLoop play next upd g ms best' α' β ≤ max F0 ev := by
              rw [hrbest]; exact hge
            have hFeq : max F0 ev = abMaxLoop play next upd g ms best' α' β :=
              le_antisymm hF'le hback
            by_cases hev : Bnd.ofInt ev ≤ α
            · have hv : v ≤ ev := ca hev
              rcases le_total ev F0 with hef | hef
              · rw [max_eq_left hef] at hFeq
                rw [← hFeq, max_eq_left (le_trans hv hef)]
              · rw [max_eq_right hef] at hFeq
                rw [hFeq] at hev
                exact absurd h1 (not_lt.mpr hev)
            · push_neg at hev
              have hevrec : ev ≤ abMaxLoop play next upd g ms best' α' β := by
                rw [hrbest]; exact hevb
              have hevβ : Bnd.ofInt ev < β :=
                lt_of_le_of_lt (Bnd.ofInt_le_ofInt.mpr hevrec) h2
              have hveq : ev = v := cc hev hevβ
              rw [← hveq]
              exact hFeq.symm
        · push_neg at hc
          have hreq : abMaxLoop play next upd g ms best' α' β = max F0 ev := ic hc h2
          by_cases hev : Bnd.ofInt ev ≤ α
          · have hv : v ≤ ev := ca hev
            rcases le_total ev F0 with hef | hef
            · rw [max_eq_left hef] at hreq
              rw [hreq, max_eq_left (le_trans hv hef)]
            · rw [max_eq_right hef] at hreq
              rw [← hreq] at hev
              exact absurd h1 (not_lt.mpr hev)
          · push_neg at hev
            have hevβ : Bnd.ofInt ev < β := lt_of_le_of_lt hevα' hα'β
            have hveq : ev = v := cc hev hevβ
            rw [hreq, hveq]

end KMLoops

section KMLoopsMin

variable {P M : Type} (play : P → M → P) (next : P → Bnd → Bnd → Int) (pv : P → Int)
variable (upd : Bnd → Int → Int → Bnd) (g : P)

theorem abMinLoop_KM
    (hupd : ∀ (b : Bnd) (bv e : Int), bv ≤ e →
      min b (Bnd.ofInt bv) ≤ upd b bv e ∧ upd b bv e ≤ min b (Bnd.ofInt e))
    (hnext : ∀ p (a b : Bnd), a < b → KM (next p a b) (pv p) a b) :
    ∀ (ms : List M) (best : Int) (α β : Bnd), α < β →
      KM (abMinLoop play next upd g ms best α β)
        (ms.foldl (fun x m => min x (pv (play g m))) best) α β := by
  intro ms
  induction ms with
  | nil =>
    intro best α β hab
    exact ⟨fun _ => le_refl _, fun _ => le_refl _, fun _ _ => rfl⟩
  | cons m ms ih =>
    intro best α β hab
    obtain ⟨ca, cb, cc⟩ := hnext (play g m) α β hab
    simp only [abMinLoop, List.foldl_cons]
    set v := pv (play g m) with hvd
    set ev := next (play g m) α β with hevd
    set best' := min best ev with hbest'
    set β' := upd β best' ev with hβ'd
    set F0 := ms.foldl (fun x m => min x (pv (play g m))) best with hF0
    have hevb : best' ≤ ev := by rw [hbest']; exact min_le_right best ev
    obtain ⟨hlow, hhigh⟩ := hupd β best' ev hevb
    have hF : ms.foldl (fun x m => min x (pv (play g m))) (min best v) = min F0 v := by
      rw [hF0]
      exact foldlMin_init_min play pv g ms best v
    rw [hF]
    by_cases hbr : β' ≤ α
    · rw [if_pos hbr]
      have hba : Bnd.ofInt best' ≤ α := by
        rcases min_le_iff.mp (le_trans hlow hbr) with h | h
        · exact absurd hab (not_lt.mpr h)
        · exact h
      refine ⟨?_, ?_, ?_⟩
      · intro _
        have hle_best : min F0 v ≤ best :=
          le_trans (min_le_left F0 v) (foldlMin_le play pv g ms best)
        have hle_ev : min F0 v ≤ ev := by
          rcases le_total ev best with hbe | hbe
          · have hbev : best' = ev := by rw [hbest']; exact min_eq_right hbe
            have hv : v ≤ ev := ca (by rw [← hbev]; exact hba)
            exact le_trans (min_le_right F0 v) hv
          · exact le_trans hle_best hbe
        rw [hbest']
        exact le_min hle_best hle_ev
      · intro h
        exact absurd hab (not_lt.mpr (le_trans h hba))
      · intro h1 _
        exact absurd h1 (not_lt.mpr hba)
    · rw [if_neg hbr]
      have hαβ' : α < β' := not_le.mp hbr
      obtain ⟨ia, ib, ic⟩ := ih best' α β' hαβ'
      have hF' : ms.foldl (fun x m => min x (pv (play g m))) best' = min F0 ev := by
        rw [hbest', hF0]
        exact foldlMin_init_min play pv g ms best ev
      rw [hF'] at ia ib ic
      have hβ'β : β' ≤ β := le_trans hhigh (min_le_left β (Bnd.ofInt ev))
      have hevβ' : β' ≤ Bnd.ofInt ev := le_trans hhigh (min_le_right β (Bnd.ofInt ev))
      refine ⟨?_, ?_, ?_⟩
      · intro h
        have hFev : min F0 ev ≤ abMinLoop play next upd g ms best' α β' := ia h
        rcases le_total F0 ev with hef | hef
        · rw [min_eq_left hef] at hFev
          exact le_trans (min_le_left F0 v) hFev
        · rw [min_eq_right hef] at hFev
          have hv : v ≤ ev :=
            ca (le_trans (Bnd.ofInt_le_ofInt.mpr hFev) h)
          exact le_trans (min_le_right F0 v) (le_trans hv hFev)
      · intro h
        have hrec : abMinLoop play next upd g ms best' α β' ≤ min F0 ev :=
          ib (le_trans hβ'β h)
        have hrF0 : abMinLoop play next upd g ms best' α β' ≤ F0 :=
          le_trans hrec (min_le_left F0 ev)
        have hrev : abMinLoop play next upd g ms best' α β' ≤ ev :=
          le_trans hrec (min_le_right F0 ev)
        have hv : ev ≤ v := cb (le_trans h (Bnd.ofInt_le_ofInt.mpr hrev))
        exact le_min hrF0 (le_trans hrev hv)
      · intro h1 h2
        by_cases hc : β' ≤ Bnd.ofInt (abMinLoop play next upd g ms best' α β')
        · have hFge : abMinLoop play next upd g ms best' α β' ≤ min F0 ev := ib hc
          have hrb : abMinLoop play next upd g ms best' α β' ≤ best' :=
            abMinLoop_le play next upd g ms best' α β'
          rcases min_le_iff.mp (le_trans hlow hc) with h | h
          · exact absurd h2 (not_lt.mpr h)
          · have hrbest : abMinLoop play next upd g ms best' α β' = best' :=
              le_antisymm hrb (Bnd.ofInt_le_ofInt.mp h)
            have hge : min F0 ev ≤ best' := by
              rw [hbest']
              exact min_le_min (foldlMin_le play pv g ms best) (le_refl ev)
            have hback : min F0 ev ≤ abMinLoop play next upd g ms best' α β' := by
              rw [hrbest]; exact hge
            have hFeq : min F0 ev = abMinLoop play next upd g ms best' α β' :=
              le_antisymm hback hFge
            by_cases hev : β ≤ Bnd.ofInt ev
            · have hv : ev ≤ v := cb hev
              rcases le_total F0 ev with hef | hef
              · rw [min_eq_left hef] at hFeq
                have hrecev : abMinLoop play next upd g ms best' α β' ≤ ev := by
                  rw [hrbest]; exact hevb
                have hF0v : F0 ≤ v := by
                  rw [hFeq]; exact le_trans hrecev hv
                rw [← hFeq, min_eq_left hF0v]
              · rw [min_eq_right hef] at hFeq
                rw [hFeq] at hev
                exact absurd h2 (not_lt.mpr hev)
            · push_neg at hev
              have hrecev : abMinLoop play next upd g ms best' α β' ≤ ev := by
                rw [hrbest]; exact hevb
              have hevα : α < Bnd.ofInt ev :=
                lt_of_lt_of_le h1 (Bnd.ofInt_le_ofInt.mpr hrecev)
              have hveq : ev = v := cc hevα hev
              rw [← hveq]
              exact hFeq.symm
        · push_neg at hc
          have hreq : abMinLoop play next upd g ms best' α β' = min F0 ev := ic h1 hc
          by_cases hev : β ≤ Bnd.ofInt ev
          · have hv : ev ≤ v := cb hev
            rcases le_total F0 ev with hef | hef
            · rw [min_eq_left hef] at hreq
              rw [hreq, min_eq_left (le_trans hef hv)]
            · rw [min_eq_right hef] at hreq
              rw [← hreq] at hev
              exact absurd h2 (not_lt.mpr hev)
          · push_neg at hev
            have hevα : α < Bnd.ofInt ev := lt_of_lt_of_le hαβ' hevβ'
            have hveq : ev = v := cc hevα hev
            rw [hreq, hveq]

end KMLoopsMin

theorem Bnd.bot_lt_ofInt (x : Int) : (⊥ : Bnd) < Bnd.ofInt x :=
  WithBot.bot_lt_coe _

theorem Bnd.ofInt_lt_top (x : Int) : Bnd.ofInt x < (⊤ : Bnd) :=
  WithBot.coe_lt_coe.mpr (WithTop.coe_lt_top x)

theorem KM_bot_top {r v : Int} (h : KM r v ⊥ ⊤) : r = v :=
  h.2.2 (Bnd.bot_lt_ofInt r) (Bnd.ofInt_lt_top r)

theorem chessAI_minimax_KM {P M : Type} (E : Engine P M) :
    ∀ (d : Nat) (g : P) (α β : Bnd) (maxing : Bool), α < β →
      KM (chessAI.minimax E d g α β maxing)
        (plainMinimax E (-99999) 99999 d g maxing) α β := by
  intro d
  induction d with
  | zero =>
    intro g α β maxing hab
    exact ⟨fun _ => le_refl _, fun _ => le_refl _, fun _ _ => rfl⟩
  | succ d ih =>
    intro g α β maxing hab
    simp only [chessAI.minimax, plainMinimax]
    split
    · exact ⟨fun _ => le_refl _, fun _ => le_refl _, fun _ _ => rfl⟩
    · split
      · exact abMaxLoop_KM E.play (fun p a b => chessAI.minimax E d p a b false)
          (fun p => plainMinimax E (-99999) 99999 d p false) (fun a _ e => max a (Bnd.ofInt e)) g
          (fun a bv e he => ⟨le_refl _, max_le_max (le_refl a) (Bnd.ofInt_le_ofInt.mpr he)⟩)
          (fun p a b h => ih p a b false h) (E.moves g) (-99999) α β hab
      · exact abMinLoop_KM E.play (fun p a b => chessAI.minimax E d p a b true)
          (fun p => plainMinimax E (-99999) 99999 d p true) (fun b _ e => min b (Bnd.ofInt e)) g
          (fun b bv e he => ⟨min_le_min (le_refl b) (Bnd.ofInt_le_ofInt.mpr he), le_refl _⟩)
          (fun p a b h => ih p a b true h) (E.moves g) 99999 α β hab

theorem ai_minimax_KM {P M : Type} (E : Engine P M) :
    ∀ (d : Nat) (g : P) (α β : Bnd) (maxing : Bool), α < β →
      KM (ai.minimax E d g α β maxing)
        (plainMinimax E (-9999) 9999 d g maxing) α β := by
  intro d
  induction d with
  | zero =>
    intro g α β maxing hab
    exact ⟨fun _ => le_refl _, fun _ => le_refl _, fun _ _ => rfl⟩
  | succ d ih =>
    intro g α β maxing hab
    simp only [ai.minimax, plainMinimax]
    split
    · exact ⟨fun _ => le_refl _, fun _ => le_refl _, fun _ _ => rfl⟩
    · split
      · exact abMaxLoop_KM E.play (fun p a b => ai.minimax E d p a b false)
          (fun p => plainMinimax E (-9999) 9999 d p false) (fun a b _ => max a (Bnd.ofInt b)) g
          (fun a bv e he => ⟨max_le_max (le_refl a) (Bnd.ofInt_le_ofInt.mpr he), le_refl _⟩)
          (fun p a b h => ih p a b false h) (E.moves g) (-9999) α β hab
      · exact abMinLoop_KM E.play (fun p a b => ai.minimax E d p a b true)
          (fun p => plainMinimax E (-9999) 9999 d p true) (fun b bv _ => min b (Bnd.ofInt bv)) g
          (fun b bv e he => ⟨le_refl _, min_le_min (le_refl b) (Bnd.ofInt_le_ofInt.mpr he)⟩)
          (fun p a b h => ih p a b true h) (E.moves g) 9999 α β hab

/-! ### The claims -/

/-- Claim C1: the claim states that at depth 0, or when the rules engine
reports the position game-over, the search returns the evaluator score for
the position itself, with no sign flip at the leaf.  The code instead returns
the negated evaluator score in both engine files: generically,
`minimax E 0 g α β maxing = -(E.eval g)`, and on a board holding a lone white
rook, which both evaluators score +50, both minimax implementations return
-50 at depth 0 and on the game-over position at depth 1. -/
theorem C1_minimax_leaf_sign_flip :
    (∀ (P M : Type) (E : Engine P M) (g : P) (α β : Bnd) (maxing : Bool),
      chessAI.minimax E 0 g α β maxing = -(E.eval g) ∧
      ai.minimax E 0 g α β maxing = -(E.eval g)) ∧
    chessAI.evaluateBoard bLoneRook = 50 ∧
    ai.evaluateBoard bLoneRook = 50 ∧
    chessAI.minimax EBchess 0 bLoneRook ⊥ ⊤ true = -50 ∧
    chessAI.minimax EBchess 1 bLoneRook ⊥ ⊤ true = -50 ∧
    ai.minimax EBai 0 bLoneRook ⊥ ⊤ true = -50 ∧
    ai.minimax EBai 1 bLoneRook ⊥ ⊤ true = -50 := by
  refine ⟨fun P M E g α β maxing => ⟨rfl, rfl⟩, ?_, ?_, ?_, ?_, ?_, ?_⟩ <;> decide

/-- Claim C2: the claim states that when exactly one legal move wins material
immediately, getBestMove at a non-Random tier with depth at least 1 returns
that move.  In the concrete engine `CE`, white to move has exactly two legal
moves; capturing the undefended queen raises the score from -40 to +50 while
the quiet move keeps it at -40; yet at tier Easy (depth 1) the chessAI
getBestMove returns the quiet move, because the sign-flipped leaf makes the
white branch maximize the negated evaluation. -/
theorem C2_selectMove_misses_winning_capture :
    CE.moves 0 = ["Rxb7", "Rb1"] ∧
    CE.turn 0 = Color.w ∧
    CE.eval 0 = -40 ∧ CE.eval 1 = 50 ∧ CE.eval 2 = -40 ∧
    chessAI.getBestMove CE 0 Difficulty.Easy 0 = some "Rb1" := by
  refine ⟨?_, ?_, ?_, ?_, ?_, ?_⟩ <;> decide

/-- Claim C3: called with the bounds (-infinity, +infinity), the alpha-beta
pruned search of each engine file returns exactly the same score as the
unpruned minimax over the same game tree, for every rules engine, position,
depth and maximizing flag; pruning never changes the returned value. -/
theorem C3_alphabeta_eq_plain_minimax {P M : Type} (E : Engine P M) (d : Nat) (g : P)
    (maxing : Bool) :
    chessAI.minimax E d g ⊥ ⊤ maxing = plainMinimax E (-99999) 99999 d g maxing ∧
    ai.minimax E d g ⊥ ⊤ maxing = plainMinimax E (-9999) 9999 d g maxing :=
  ⟨KM_bot_top (chessAI_minimax_KM E d g ⊥ ⊤ maxing Bnd.bot_lt_top),
   KM_bot_top (ai_minimax_KM E d g ⊥ ⊤ maxing Bnd.bot_lt_top)⟩

/-- Witness for claim C3 at a concrete engine, depth and position. -/
theorem C3_alphabeta_eq_plain_minimax_witness :
    chessAI.minimax CE 2 0 ⊥ ⊤ true = plainMinimax CE (-99999) 99999 2 0 true ∧
    ai.minimax CE 2 0 ⊥ ⊤ true = plainMinimax CE (-9999) 9999 2 0 true :=
  C3_alphabeta_eq_plain_minimax CE 2 0 true

/-- Claim C4 counterexample: the claim states that every non-Random-tier call
of getBestMove scores the candidates in a randomized order, so that runs
differing only in the random sequence can return different tied-best moves.
The chessAI version has no shuffle: on the engine `TIE`, whose two moves are
tied-best, its result at tier Easy is the same move for every value of the
random draw, so no two runs differing only in the random sequence can ever
differ. -/
theorem C4_counterexample :
    TIE.moves 0 = ["a", "b"] ∧
    TIE.eval (TIE.play 0 "a") = TIE.eval (TIE.play 0 "b") ∧
    chessAI.getBestMove TIE 0 Difficulty.Easy 0 = some "a" ∧
    ¬ (∃ r₁ r₂ : Nat, chessAI.getBestMove TIE 0 Difficulty.Easy r₁ ≠
        chessAI.getBestMove TIE 0 Difficulty.Easy r₂) := by
  refine ⟨by decide, by decide, by decide, ?_⟩
  rintro ⟨r₁, r₂, hne⟩
  exact hne rfl

/-- Claim C4 amended: only the ai version scores candidates in the shuffled
order, which makes its tie-break follow the random shuffle (the two orders of
the same two tied-best moves return different moves); the chessAI version
scores the candidates in enumeration order and its result is independent of
the random sequence at every non-Random tier. -/
theorem C4_amended_tie_break :
    (ai.getBestMove TIE 0 Difficulty.Easy 0 ["a", "b"] = some "a" ∧
     ai.getBestMove TIE 0 Difficulty.Easy 0 ["b", "a"] = some "b") ∧
    (∀ (P M : Type) (E : Engine P M) (g : P) (r₁ r₂ : Nat),
      chessAI.getBestMove E g Difficulty.Easy r₁ = chessAI.getBestMove E g Difficulty.Easy r₂ ∧
      chessAI.getBestMove E g Difficulty.Hard r₁ = chessAI.getBestMove E g Difficulty.Hard r₂ ∧
      chessAI.getBestMove E g Difficulty.Master r₁ =
        chessAI.getBestMove E g Difficulty.Master r₂) := by
  constructor
  · exact ⟨by decide, by decide⟩
  · intro P M E g r₁ r₂
    refine ⟨?_, ?_, ?_⟩ <;>
      (simp only [chessAI.getBestMove]
       cases h : E.moves g with
       | nil => rfl
       | cons m0 rest => rfl)

/-- Witness for the amended claim C4 at a concrete engine. -/
theorem C4_amended_tie_break_witness :
    chessAI.getBestMove TIE 0 Difficulty.Easy 3 = chessAI.getBestMove TIE 0 Difficulty.Easy 7 :=
  (C4_amended_tie_break.2 Nat String TIE 0 3 7).1

/-- Claim C5 counterexample: the claim describes evaluateBoard as material
plus a pawn/knight positional bonus; the ai.ts evaluateBoard has no
positional term: a lone white pawn on square (3, 3), whose pawn-table bonus
is 20, scores 10 under the ai evaluator while the claimed sum is 30. -/
theorem C5_counterexample :
    ai.evaluateBoard bPawn33 ≠ claimEval bPawn33 ∧
    ai.evaluateBoard bPawn33 = 10 ∧ claimEval bPawn33 = 30 := by
  refine ⟨?_, ?_, ?_⟩ <;> decide

/-- Claim C5 amended: the chessAI evaluateBoard is exactly the claimed sum
over all pieces of material value plus, for pawns and knights only, the table
bonus at the square index for white and the vertically mirrored index for
black, each contribution signed by side; the ai.ts evaluateBoard is the same
sum with the positional term dropped.  Both are pure functions of the
board. -/
theorem C5_amended_evaluator_sum (bd : Board) :
    chessAI.evaluateBoard bd = claimEval bd ∧
    ai.evaluateBoard bd = claimEvalMaterialOnly bd := by
  constructor
  · rw [chessAI_evaluateBoard_eq_sum]
    unfold claimEval
    apply Finset.sum_congr rfl
    intro i _
    apply Finset.sum_congr rfl
    intro j _
    exact chessAI_squareScore_eq_claim bd i j
  · rw [ai_evaluateBoard_eq_sum]
    unfold claimEvalMaterialOnly
    apply Finset.sum_congr rfl
    intro i _
    apply Finset.sum_congr rfl
    intro j _
    exact ai_squareScore_eq_material bd i j

/-- Witness for the amended claim C5 at a concrete board. -/
theorem C5_amended_evaluator_sum_witness :
    chessAI.evaluateBoard bPawn33 = claimEval bPawn33 ∧
    ai.evaluateBoard bPawn33 = claimEvalMaterialOnly bPawn33 :=
  C5_amended_evaluator_sum bPawn33

/-- Claim C6: if the move enumeration of a position yields zero legal moves
and — as the rules engine guarantees for chess — such a position is reported
game-over, then at every depth greater than zero both minimax versions return
exactly the value of the depth-0 terminal case: they evaluate the position
directly. -/
theorem C6_no_moves_terminal {P M : Type} (E : Engine P M) (g : P)
    (hinv : ∀ p, E.moves p = [] → E.isGameOver p = true)
    (hm : E.moves g = []) (d : Nat) (α β : Bnd) (maxing : Bool) :
    chessAI.minimax E (d + 1) g α β maxing = chessAI.minimax E 0 g α β maxing ∧
    ai.minimax E (d + 1) g α β maxing = ai.minimax E 0 g α β maxing := by
  have hg : E.isGameOver g = true := hinv g hm
  constructor
  · simp [chessAI.minimax, hg]
  · simp [ai.minimax, hg]

/-- Witness for claim C6 at a concrete engine whose moveless positions are
game-over. -/
theorem C6_no_moves_terminal_witness :
    NOMOVES.moves 1 = [] ∧
    (chessAI.minimax NOMOVES 1 1 ⊥ ⊤ true = chessAI.minimax NOMOVES 0 1 ⊥ ⊤ true ∧
     ai.minimax NOMOVES 1 1 ⊥ ⊤ true = ai.minimax NOMOVES 0 1 ⊥ ⊤ true) :=
  ⟨rfl, C6_no_moves_terminal NOMOVES 1
    (fun p hp => by
      by_cases h0 : p = 0
      · subst h0; simp [NOMOVES] at hp
      · simp [NOMOVES, h0])
    rfl 0 ⊥ ⊤ true⟩

/-- Claim C7: for every board, the chessAI evaluateBoard of the
color-mirrored counterpart (all pieces swapped to the opposite side, the
board flipped vertically) is the exact negation of the original score. -/
theorem C7_evaluator_mirror_antisymmetry (bd : Board) :
    chessAI.evaluateBoard (mirrorBoard bd) = -(chessAI.evaluateBoard bd) := by
  rw [chessAI_evaluateBoard_eq_sum, chessAI_evaluateBoard_eq_sum]
  have h1 : ∀ i ∈ Finset.range 8,
      (∑ j in Finset.range 8, chessAI.squareScore (mirrorBoard bd) i j) =
        -(∑ j in Finset.range 8, chessAI.squareScore bd (7 - i) j) := by
    intro i hi
    rw [← Finset.sum_neg_distrib]
    apply Finset.sum_congr rfl
    intro j _
    exact chessAI_squareScore_mirror bd i j (Finset.mem_range.mp hi)
  rw [Finset.sum_congr rfl h1, Finset.sum_neg_distrib]
  congr 1
  exact Finset.sum_range_reflect
    (fun i => ∑ j in Finset.range 8, chessAI.squareScore bd i j) 8

/-- Witness for claim C7 at a concrete board. -/
theorem C7_evaluator_mirror_antisymmetry_witness :
    chessAI.evaluateBoard (mirrorBoard bRoot) = -(chessAI.evaluateBoard bRoot) :=
  C7_evaluator_mirror_antisymmetry bRoot

/-- Claim C8: for every rules engine, position, tier, random draw and
shuffle, each getBestMove returns none exactly when the position has no legal
moves; on a nonempty move list it always returns some move (the chessAI
re-run loop starts from the first enumerated candidate and the ai version
falls back to the first candidate of its iteration order), and both are total
functions, so the call never throws. -/
theorem C8_none_iff_no_moves {P M : Type} (E : Engine P M) (g : P)
    (difficulty : Difficulty) (rand : Nat) (shuffledMoves : List M) :
    (chessAI.getBestMove E g difficulty rand = none ↔ E.moves g = []) ∧
    (ai.getBestMove E g difficulty rand shuffledMoves = none ↔ E.moves g = []) := by
  cases h : E.moves g with
  | nil =>
    constructor <;> simp [chessAI.getBestMove, ai.getBestMove, h]
  | cons m0 rest =>
    have h1 : ∃ mv, chessAI.getBestMove E g difficulty rand = some mv := by
      simp only [chessAI.getBestMove, h]
      split
      · exact ⟨_, rfl⟩
      · exact ⟨_, rfl⟩
    have h2 : ∃ mv, ai.getBestMove E g difficulty rand shuffledMoves = some mv := by
      simp only [ai.getBestMove, h]
      split
      · exact ⟨_, rfl⟩
      · split
        · exact ⟨_, rfl⟩
        · exact ⟨_, rfl⟩
    obtain ⟨mv1, hmv1⟩ := h1
    obtain ⟨mv2, hmv2⟩ := h2
    constructor
    · rw [hmv1]
      constructor
      · intro hc
        exact absurd hc (Option.some_ne_none mv1)
      · intro hc
        exact absurd hc (List.cons_ne_nil m0 rest)
    · rw [hmv2]
      constructor
      · intro hc
        exact absurd hc (Option.some_ne_none mv2)
      · intro hc
        exact absurd hc (List.cons_ne_nil m0 rest)

/-- Witness for claim C8 at a concrete engine on both a live and a finished
position. -/
theorem C8_none_iff_no_moves_witness :
    ((chessAI.getBestMove CE 0 Difficulty.Easy 0 = none ↔ CE.moves 0 = []) ∧
     (ai.getBestMove CE 0 Difficulty.Easy 0 ["Rxb7", "Rb1"] = none ↔ CE.moves 0 = [])) ∧
    ((chessAI.getBestMove CE 1 Difficulty.Easy 0 = none ↔ CE.moves 1 = []) ∧
     (ai.getBestMove CE 1 Difficulty.Easy 0 [] = none ↔ CE.moves 1 = [])) :=
  ⟨C8_none_iff_no_moves CE 0 Difficulty.Easy 0 ["Rxb7", "Rb1"],
   C8_none_iff_no_moves CE 1 Difficulty.Easy 0 []⟩

/-- Claim C9: the returned move of the chessAI getBestMove is decided
entirely by its final re-run selection loop: the version with the first
scoring loop deleted returns the same move on every engine, position, tier
and random draw, because the first loop writes only `bestMove` and
`bestValue`, which are never read afterwards. -/
theorem C9_first_loop_dead {P M : Type} (E : Engine P M) (g : P)
    (difficulty : Difficulty) (rand : Nat) :
    chessAI.getBestMove E g difficulty rand =
      chessAI.getBestMoveRerunOnly E g difficulty rand := rfl

/-- Witness for claim C9 at a concrete engine. -/
theorem C9_first_loop_dead_witness :
    chessAI.getBestMove CE 0 Difficulty.Easy 0 =
      chessAI.getBestMoveRerunOnly CE 0 Difficulty.Easy 0 :=
  C9_first_loop_dead CE 0 Difficulty.Easy 0

/-- Claim C10: on the mutable game object, both getBestMove versions leave
the game exactly as given: every move applied in the selection loops and
throughout the minimax recursion is undone before return, so the final state
(current position and undo history, hence the FEN) equals the initial one. -/
theorem C10_getBestMove_restores_game {P M : Type} (E : Engine P M) (s : GameSt P)
    (difficulty : Difficulty) (rand : Nat) (shuffledMoves : List M) :
    (chessAI.getBestMoveS E s difficulty rand).2 = s ∧
    (ai.getBestMoveS E s difficulty rand shuffledMoves).2 = s := by
  constructor
  · rw [chessAI_getBestMoveS_bridge]
  · rw [ai_getBestMoveS_bridge]

/-- Witness for claim C10 at a concrete engine and game state. -/
theorem C10_getBestMove_restores_game_witness :
    (chessAI.getBestMoveS CE ⟨0, []⟩ Difficulty.Easy 0).2 = (⟨0, []⟩ : GameSt Nat) ∧
    (ai.getBestMoveS CE ⟨0, []⟩ Difficulty.Easy 0 ["Rxb7", "Rb1"]).2 = (⟨0, []⟩ : GameSt Nat) :=
  C10_getBestMove_restores_game CE ⟨0, []⟩ Difficulty.Easy 0 ["Rxb7", "Rb1"]
